import Mathlib

/-!
Verification development for the anglo-saxon-dictionary core
(`parser/src/lib.rs`): the HTML-to-entry extractor (`Entry::try_from`,
`parse`) and the lookup index (`Dictionary::new`, `Dictionary::search`,
`Dictionary::define`).

Strings are embedded as `List Char`.  The HTML parse tree provider
(`scraper` / `Html::parse_document`) is an external collaborator; the
embedding therefore starts from an already-parsed node tree (`Node`),
and models the tree operations the source uses (`select`, `children`,
`first_child`, `attr`, `as_text`, `as_element`).

Rust panics (`unwrap`, `expect`, `panic!`) abort the process; a
computation that may panic is embedded as an `Option`, with `none`
standing for a panic (process abort), while a Rust `Result` return
value is embedded as `Except`.  Thus `some (Except.error e)` is an
error value surfaced to the caller, and `none` is a crash.
-/

/-- Strings of the embedded program: Rust `String` / `&str` as a list
of characters. -/
abbrev Str := List Char

/-- Whitespace as used by Rust `str::trim` (`char::is_whitespace`),
restricted to the ASCII whitespace characters; the non-ASCII Unicode
whitespace code points are not modelled. -/
def isWs (c : Char) : Bool :=
  c = ' ' || c = '\t' || c = '\n' || c = '\r' || c = '\x0b' || c = '\x0c'

/-- Rust `str::trim`: remove leading and trailing whitespace. -/
def trim (s : Str) : Str :=
  ((s.dropWhile isWs).reverse.dropWhile isWs).reverse

/-- Rust `txt_str.replace("\n", " ")`: each newline becomes a single
space. -/
def replaceNl (s : Str) : Str :=
  s.map (fun c => if c = '\n' then ' ' else c)

/-- Rust `id.starts_with("word_")`: the fixed marker used to recognise
headword anchors. -/
def startsWithMarker (s : Str) : Bool :=
  List.isPrefixOf "word_".data s

mutual
/-- A node of the parsed HTML tree: either a text node or an element
with a tag name, an attribute list and a list of child nodes. -/
inductive Node where
  | text (s : Str)
  | element (tag : Str) (attrs : List (Str × Str)) (children : NodeList)

/-- Child lists of `Node` (a separate inductive so that recursion over
the tree is structural). -/
inductive NodeList where
  | nil
  | cons (head : Node) (tail : NodeList)
end

/-- Convert a child list to an ordinary `List`. -/
def NodeList.toList : NodeList → List Node
  | .nil => []
  | .cons n ns => n :: ns.toList

/-- `NodeRef::children` of the source: the direct children of a node
(a text node has none). -/
def Node.childList : Node → NodeList
  | .text _ => .nil
  | .element _ _ cs => cs

/-- `NodeRef::first_child`. -/
def Node.firstChild (n : Node) : Option Node :=
  match n.childList with
  | .nil => none
  | .cons c _ => some c

/-- `NodeRef::has_children`. -/
def Node.hasChildren (n : Node) : Bool :=
  match n.childList with
  | .nil => false
  | .cons _ _ => true

/-- `Node::as_text`: the text content of a text node. -/
def Node.asText : Node → Option Str
  | .text s => some s
  | .element _ _ _ => none

/-- `Element::attr`: look up an attribute value by name (first match). -/
def Node.attrOf (n : Node) (key : Str) : Option Str :=
  match n with
  | .text _ => none
  | .element _ attrs _ => (attrs.find? (fun kv => kv.1 == key)).map (fun kv => kv.2)

/-- Whether a node is an element with the given tag name (what a tag
selector such as `"p"` or `"b"` matches). -/
def Node.isTag (n : Node) (t : Str) : Bool :=
  match n with
  | .text _ => false
  | .element tag _ _ => tag == t

mutual
/-- Depth-first, document-order traversal of a node and all of its
descendants (the order in which `scraper`'s `select` visits nodes). -/
def preorder : Node → List Node
  | .text s => [.text s]
  | .element t a cs => .element t a cs :: preorderAll cs

/-- Depth-first traversal of a list of sibling trees, in order. -/
def preorderAll : NodeList → List Node
  | .nil => []
  | .cons n ns => preorder n ++ preorderAll ns
end

/-- `document.select(&Selector::parse(tag))`: every element of the
document with the given tag, in document order. -/
def selectTag (t : Str) (roots : NodeList) : List Node :=
  (preorderAll roots).filter (fun n => n.isTag t)

/-- `paragraph_el.select(&Selector::parse("b").unwrap()).take(1).next()`:
the first bold element among the paragraph's descendants, if any. -/
def firstBold (p : Node) : Option Node :=
  ((preorderAll p.childList).filter (fun n => n.isTag "b".data)).head?

/-- One word-and-definition record, `Entry` of the source. -/
structure Entry where
  word : Str
  definition : Str
deriving DecidableEq

/-- The error values an operation can surface (`anyhow::Error` values
produced by the source; query parsing attaches the context
"Invalid query"). -/
inductive DictErr where
  | invalidQuery
deriving DecidableEq

/-- Equality of embedded `Result` values is decidable. -/
instance {ε α : Type} [DecidableEq ε] [DecidableEq α] : DecidableEq (Except ε α) := fun x y =>
  match x, y with
  | Except.ok a, Except.ok b =>
    if h : a = b then isTrue (by rw [h])
    else isFalse (by intro hh; cases hh; exact h rfl)
  | Except.ok _, Except.error _ => isFalse (by intro h; cases h)
  | Except.error _, Except.ok _ => isFalse (by intro h; cases h)
  | Except.error e, Except.error f =>
    if h : e = f then isTrue (by rw [h])
    else isFalse (by intro hh; cases hh; exact h rfl)

/-- Whether a child node triggers the word-extraction branch of the
loop in `Entry::try_from`: `child.value().as_element()` succeeds and
the element has an `id` attribute (of any value). -/
def hasIdAttr (c : Node) : Bool :=
  match c with
  | .text _ => false
  | .element _ _ _ => (c.attrOf "id".data).isSome

/-- The word-extraction step of the loop body of `Entry::try_from`:
if the first child of the first bold element is a text node, the word
becomes that text trimmed; otherwise the accumulator is unchanged. -/
def wordUpdate (wordEl : Node) (w : Str) : Str :=
  match wordEl.firstChild with
  | some b =>
    match b.asText with
    | some t => trim t
    | none => w
  | none => w

/-- The definition-extraction step of the loop body of
`Entry::try_from`: if the child's own first child is a text node,
append that text with newlines replaced by spaces plus one trailing
space. -/
def defUpdate (c : Node) (d : Str) : Str :=
  match c.firstChild with
  | some fc =>
    match fc.asText with
    | some t => d ++ replaceNl t ++ [' ']
    | none => d
  | none => d

/-- The `for child in paragraph_el.children()` loop of
`Entry::try_from`, accumulating the `word` and `definition` locals.
(The `id` local of the source is only logged and never read, so it is
not tracked.) -/
def childLoop (wordEl : Node) : NodeList → Str → Str → Str × Str
  | .nil, w, d => (w, d)
  | .cons c cs, w, d =>
    childLoop wordEl cs (if hasIdAttr c then wordUpdate wordEl w else w) (defUpdate c d)

/-- `Entry::try_from` on a paragraph element.  `none` models a panic:
the `.unwrap()` on the first bold selection (line 31) and the
`.unwrap()` on `first_child()` (line 32).  The function otherwise
always reaches `Ok(Entry { .. })`: its declared error type is never
produced. -/
def tryFromEntry (p : Node) : Option (Except DictErr Entry) :=
  match firstBold p with
  | none => none
  | some wordEl =>
    match p.firstChild with
    | none => none
    | some _anchor =>
      let wd := childLoop wordEl p.childList [] []
      some (Except.ok { word := wd.1, definition := trim wd.2 })

/-- The paragraph filter of `parse`: `has_children()` and the first
child is an element whose `id` attribute value starts with `"word_"`. -/
def qualifies (n : Node) : Bool :=
  n.hasChildren &&
    (match n.firstChild with
     | some c =>
       match c with
       | .element _ _ _ =>
         match c.attrOf "id".data with
         | some v => startsWithMarker v
         | none => false
       | .text _ => false
     | none => false)

/-- The paragraphs of the document that `parse` keeps: every `p`
element, in document order, passing the `qualifies` filter. -/
def qualifyingParagraphs (roots : NodeList) : List Node :=
  (selectTag "p".data roots).filter qualifies

/-- `.expect("Invalid element for Entry conversion")` applied to the
conversion result: an `Err` would panic, and a panic inside the
conversion propagates. -/
def expectOk : Option (Except DictErr Entry) → Option Entry
  | some (Except.ok e) => some e
  | some (Except.error _) => none
  | none => none

/-- Rust iterator `.map(..).collect()` where the mapped function may
panic: the first panic aborts the whole pass. -/
def mapOpt (f : α → Option β) : List α → Option (List β)
  | [] => some []
  | x :: xs =>
    match f x with
    | none => none
    | some y =>
      match mapOpt f xs with
      | none => none
      | some ys => some (y :: ys)

/-- The entry-extraction pass of `parse`: convert every qualifying
paragraph, aborting (panicking) on any conversion failure. -/
def extractEntries (roots : NodeList) : Option (List Entry) :=
  mapOpt (fun p => expectOk (tryFromEntry p)) (qualifyingParagraphs roots)

/-- The lookup index.  `Dictionary::new` adds every entry to the
backing full-text index in order and commits once; the embedding keeps
the stored entry sequence. -/
structure Dictionary where
  entries : List Entry
deriving DecidableEq

/-- `Dictionary::new`: build the index from the full entry sequence. -/
def Dictionary.new (es : List Entry) : Dictionary := ⟨es⟩

/-- `parse` after the document has been read and parsed into a tree:
extract the entries and build the `Dictionary`.  `none` models a panic
inside the extraction pass. -/
def parseDoc (roots : NodeList) : Option (Except DictErr Dictionary) :=
  match extractEntries roots with
  | none => none
  | some es => some (Except.ok (Dictionary.new es))

/-- Modelled from the spec: the tokenizer of the external full-text
engine (§6) splits text into runs of alphanumeric characters and
lowercases them.  Auxiliary: `cur` is the current run, reversed. -/
def tokenizeAux : Str → Str → List Str
  | [], cur => if cur.isEmpty then [] else [cur.reverse]
  | c :: cs, cur =>
    if c.isAlpha || c.isDigit then tokenizeAux cs (c.toLower :: cur)
    else if cur.isEmpty then tokenizeAux cs []
    else cur.reverse :: tokenizeAux cs []

/-- Modelled from the spec: tokenization used for both indexed fields
and query terms (§6). -/
def tokenize (s : Str) : List Str := tokenizeAux s []

/-- Modelled from the spec: a query whose quotation marks are
unbalanced is malformed under the backend's query grammar (§4.2,
§8). -/
def unbalancedQuote (q : Str) : Bool :=
  (q.count '"') % 2 == 1

/-- Modelled from the spec: `QueryParser::parse_query`.  A malformed
query (unbalanced quoting) is a reportable `InvalidQuery` error; a
well-formed query parses to its list of free-text terms. -/
def parseQuery (q : Str) : Except DictErr (List Str) :=
  if unbalancedQuote q then Except.error DictErr.invalidQuery
  else Except.ok (tokenize (q.filter (fun c => !(c == '"'))))

/-- The two indexed fields of the schema built by `Dictionary::new`. -/
inductive IdxField where
  | word
  | definition
deriving DecidableEq

/-- The stored text of a field of an entry. -/
def fieldText (e : Entry) : IdxField → Str
  | .word => e.word
  | .definition => e.definition

/-- Modelled from the spec: the relevance score of an entry for a
query, over the given default fields — the number of term occurrences
in the tokenized field texts (a term-frequency ranking stands in for
the backend's tf-idf model, which the spec delegates, §4.2). -/
def score (fs : List IdxField) (terms : List Str) (e : Entry) : ℕ :=
  (terms.map (fun t => (fs.map (fun f => (tokenize (fieldText e f)).count t)).sum)).sum

/-- Stable insertion into a list sorted by descending key. -/
def insertDesc (key : Entry → ℕ) (e : Entry) : List Entry → List Entry
  | [] => [e]
  | x :: xs => if key x ≤ key e then e :: x :: xs else x :: insertDesc key e xs

/-- Stable sort by descending key (relevance ranking order). -/
def sortDesc (key : Entry → ℕ) : List Entry → List Entry
  | [] => []
  | e :: es => insertDesc key e (sortDesc key es)

/-- Modelled from the spec: `searcher.search(&query, &TopDocs::with_limit(k))`
followed by document retrieval — the entries matching the query over
the given default fields, ordered by descending relevance, at most `k`
of them (§4.2, §6). -/
def topDocs (fs : List IdxField) (terms : List Str) (es : List Entry) (k : ℕ) : List Entry :=
  (sortDesc (score fs terms) (es.filter (fun e => 0 < score fs terms e))).take k

/-- `Dictionary::search`: default fields `word` and `definition`,
result limit `limit.unwrap_or(10)`. -/
def Dictionary.search (d : Dictionary) (q : Str) (limit : Option ℕ) :
    Except DictErr (List Entry) :=
  match parseQuery q with
  | Except.error err => Except.error err
  | Except.ok terms =>
    Except.ok (topDocs [IdxField.word, IdxField.definition] terms d.entries (limit.getD 10))

/-- `Dictionary::define`: default field `word` only, fixed result
limit `10`; the signature offers the caller no limit parameter. -/
def Dictionary.define (d : Dictionary) (q : Str) : Except DictErr (List Entry) :=
  match parseQuery q with
  | Except.error err => Except.error err
  | Except.ok terms =>
    Except.ok (topDocs [IdxField.word] terms d.entries 10)

/-- The selection rule in the words of the spec (§4.1): the first
child node is an element carrying an `id` attribute whose value begins
with the marker `"word_"`. -/
def qualifiesSpec (n : Node) : Bool :=
  match n.firstChild with
  | some (Node.element t attrs cs) =>
    match (Node.element t attrs cs).attrOf "id".data with
    | some v => startsWithMarker v
    | none => false
  | _ => false

/-- The definition-extraction computation in the words of the spec
(§4.1): the contribution of one direct child — its first child's text
with newlines replaced by single spaces plus one trailing space, or
nothing. -/
def definitionPiece (c : Node) : Str :=
  match c.firstChild with
  | some fc =>
    match fc.asText with
    | some t => replaceNl t ++ [' ']
    | none => []
  | none => []

/-- The definition-extraction computation in the words of the spec
(§4.1): concatenate the pieces over the direct children in document
order, then trim. -/
def definitionSpec (p : Node) : Str :=
  trim (p.childList.toList.map definitionPiece).flatten

/-- The first text-node child of a node (reading "its first text-node
child" as the first child that is a text node). -/
def firstTextChild (n : Node) : Option Str :=
  (n.childList.toList.filterMap Node.asText).head?

/-- The word-extraction computation in the words of the claim: the
first text-node child of the paragraph's first bold element,
trimmed. -/
def wordSpec (p : Node) : Option Str :=
  (firstBold p).bind (fun b => (firstTextChild b).map trim)

/-- The word the code actually extracts from a qualifying paragraph:
the first child of the first bold element when that child is a text
node, trimmed; the empty string otherwise. -/
def wordAmended (p : Node) : Str :=
  match firstBold p with
  | some b =>
    match b.firstChild with
    | some fc =>
      match fc.asText with
      | some t => trim t
      | none => []
    | none => []
  | none => []

/-- The word field of a successful conversion, if any. -/
def extractedWord (p : Node) : Option Str :=
  match tryFromEntry p with
  | some (Except.ok e) => some e.word
  | _ => none

/-- Build a `NodeList` from a `List`. -/
def nl : List Node → NodeList
  | [] => NodeList.nil
  | n :: ns => NodeList.cons n (nl ns)

/-- A headword anchor element: `<a id="word_10001"></a>`. -/
def anchorEl : Node :=
  Node.element "a".data [("id".data, "word_10001".data)] NodeList.nil

/-- A well-formed dictionary paragraph: anchor, bold headword, and
definition text spread over a text node and an inline element. -/
def pGood : Node :=
  Node.element "p".data []
    (nl [anchorEl,
         Node.element "b".data [] (nl [Node.text " Leoht ".data]),
         Node.text "\n".data,
         Node.element "span".data [] (nl [Node.text "a light,\nluminary".data])])

/-- A paragraph that does not qualify (first child is a text node). -/
def pSkip : Node :=
  Node.element "p".data [] (nl [Node.text "running header".data])

/-- A qualifying paragraph with no bold element anywhere. -/
def pNoBold : Node :=
  Node.element "p".data [] (nl [anchorEl, Node.text "orphan text".data])

/-- A qualifying paragraph whose bold element's first child is an
element, not a text node. -/
def pNoText : Node :=
  Node.element "p".data []
    (nl [anchorEl,
         Node.element "b".data []
           (nl [Node.element "i".data [] (nl [Node.text "x".data])]),
         Node.element "span".data [] (nl [Node.text "hello world".data])])

/-- A qualifying paragraph whose bold element holds a text node only
after a leading inline element. -/
def pLateText : Node :=
  Node.element "p".data []
    (nl [anchorEl,
         Node.element "b".data []
           (nl [Node.element "i".data [] (nl [Node.text "x".data]),
                Node.text " real ".data])])

/-- Wrap paragraphs into a document tree. -/
def docOf (ps : List Node) : NodeList :=
  nl [Node.element "html".data []
       (nl [Node.element "body".data [] (nl ps)])]

/-- A well-formed document: one good entry paragraph and one
non-qualifying paragraph. -/
def docGood : NodeList := docOf [pGood, pSkip]

/-- A document whose two qualifying paragraphs are identical. -/
def docDup : NodeList := docOf [pGood, pGood]

/-- A document whose only qualifying paragraph has no bold element. -/
def docNoBold : NodeList := docOf [pSkip, pNoBold]

/-- A document whose only qualifying paragraph yields an empty word. -/
def docNoText : NodeList := docOf [pNoText]

/-- The entry the good paragraph extracts to. -/
def entryGood : Entry :=
  { word := "Leoht".data, definition := "Leoht  a light, luminary".data }

/-- The entry the no-text paragraph extracts to: empty word. -/
def entryNoText : Entry :=
  { word := [], definition := "hello world".data }

/-- A small dictionary, the round-trip example of the spec (§8). -/
def dictAB : Dictionary :=
  Dictionary.new [{ word := "a".data, definition := "first letter".data },
                  { word := "b".data, definition := "second letter".data }]


mutual
/-- Equality of tree nodes is decidable. -/
def nodeDecEq : (a b : Node) → Decidable (a = b)
  | Node.text s, Node.text t =>
    if h : s = t then isTrue (by rw [h])
    else isFalse (by intro hh; injection hh; contradiction)
  | Node.text _, Node.element _ _ _ => isFalse (by intro h; cases h)
  | Node.element _ _ _, Node.text _ => isFalse (by intro h; cases h)
  | Node.element t1 a1 c1, Node.element t2 a2 c2 =>
    if h1 : t1 = t2 then
      if h2 : a1 = a2 then
        match nodeListDecEq c1 c2 with
        | isTrue h3 => isTrue (by rw [h1, h2, h3])
        | isFalse _ => isFalse (by intro hh; injection hh; contradiction)
      else isFalse (by intro hh; injection hh; contradiction)
    else isFalse (by intro hh; injection hh; contradiction)

/-- Equality of node lists is decidable. -/
def nodeListDecEq : (a b : NodeList) → Decidable (a = b)
  | NodeList.nil, NodeList.nil => isTrue rfl
  | NodeList.nil, NodeList.cons _ _ => isFalse (by intro h; cases h)
  | NodeList.cons _ _, NodeList.nil => isFalse (by intro h; cases h)
  | NodeList.cons x xs, NodeList.cons y ys =>
    match nodeDecEq x y with
    | isTrue hx =>
      match nodeListDecEq xs ys with
      | isTrue hxs => isTrue (by rw [hx, hxs])
      | isFalse _ => isFalse (by intro hh; injection hh; contradiction)
    | isFalse _ => isFalse (by intro hh; injection hh; contradiction)
end

instance : DecidableEq Node := nodeDecEq

instance : DecidableEq NodeList := nodeListDecEq

/-- The entry a successful conversion produces (placeholder entry
otherwise); used to state order preservation of the extraction pass. -/
def extractedOr (p : Node) : Entry :=
  match tryFromEntry p with
  | some (Except.ok e) => e
  | _ => { word := [], definition := [] }

/-- The bold element of the good paragraph. -/
def bEl : Node := Node.element "b".data [] (nl [Node.text " Leoht ".data])

theorem mem_of_mem_dropWhile {p : Char → Bool} :
    ∀ {s : Str} {c : Char}, c ∈ s.dropWhile p → c ∈ s := by
  intro s
  induction s with
  | nil => intro c h; simp at h
  | cons a as ih =>
    intro c h
    rw [List.dropWhile_cons] at h
    by_cases hp : p a = true
    · rw [if_pos hp] at h
      exact List.mem_cons_of_mem a (ih h)
    · rw [if_neg hp] at h
      exact h

theorem head_dropWhile_not {p : Char → Bool} :
    ∀ {s : Str} {c : Char}, (s.dropWhile p).head? = some c → p c = false := by
  intro s
  induction s with
  | nil => intro c h; simp [List.dropWhile] at h
  | cons a as ih =>
    intro c h
    rw [List.dropWhile_cons] at h
    by_cases hp : p a = true
    · rw [if_pos hp] at h
      exact ih h
    · rw [if_neg hp] at h
      have hac : a = c := by simpa using h
      subst hac
      simpa using hp

theorem dropWhile_decomp {p : Char → Bool} : ∀ (s : Str), ∃ u, s = u ++ s.dropWhile p := by
  intro s
  induction s with
  | nil => exact ⟨[], rfl⟩
  | cons a as ih =>
    by_cases hp : p a = true
    · obtain ⟨u, hu⟩ := ih
      refine ⟨a :: u, ?_⟩
      rw [List.dropWhile_cons, if_pos hp, List.cons_append]
      exact congrArg (a :: ·) hu
    · refine ⟨[], ?_⟩
      rw [List.dropWhile_cons, if_neg hp, List.nil_append]

theorem getLast?_rev : ∀ (l : Str), l.reverse.getLast? = l.head? := by
  intro l
  cases l with
  | nil => rfl
  | cons a as => rw [List.reverse_cons, List.getLast?_concat]; rfl

theorem mem_of_mem_trim {s : Str} {c : Char} (h : c ∈ trim s) : c ∈ s := by
  unfold trim at h
  rw [List.mem_reverse] at h
  have h2 := mem_of_mem_dropWhile h
  rw [List.mem_reverse] at h2
  exact mem_of_mem_dropWhile h2

theorem trim_head_not_ws {s : Str} {c : Char} (h : (trim s).head? = some c) : isWs c = false := by
  obtain ⟨u, hu⟩ := dropWhile_decomp (p := isWs) (s.dropWhile isWs).reverse
  have hrev : s.dropWhile isWs = trim s ++ u.reverse := by
    have h1 := congrArg List.reverse hu
    rw [List.reverse_reverse, List.reverse_append] at h1
    exact h1
  cases htr : trim s with
  | nil => rw [htr] at h; cases h
  | cons x xs =>
    rw [htr] at h
    have hx : x = c := by simpa using h
    subst hx
    apply head_dropWhile_not (p := isWs) (s := s)
    rw [hrev, htr, List.cons_append]
    rfl

theorem trim_getLast_not_ws {s : Str} {c : Char} (h : (trim s).getLast? = some c) :
    isWs c = false := by
  have h2 : ((s.dropWhile isWs).reverse.dropWhile isWs).reverse.getLast? = some c := h
  rw [getLast?_rev] at h2
  exact head_dropWhile_not h2

theorem definitionPiece_no_nl (n : Node) {c : Char} (h : c ∈ definitionPiece n) : c ≠ '\n' := by
  unfold definitionPiece at h
  cases hfc : n.firstChild with
  | none => rw [hfc] at h; cases h
  | some fc =>
    rw [hfc] at h
    cases fc with
    | element te ae ce => cases h
    | text t =>
      have h2 : c ∈ replaceNl t ++ [' '] := h
      rw [List.mem_append] at h2
      rcases h2 with h2 | h2
      · unfold replaceNl at h2
        rw [List.mem_map] at h2
        obtain ⟨a, _, ha⟩ := h2
        intro hc
        subst hc
        by_cases hna : a = '\n'
        · rw [if_pos hna] at ha
          cases ha
        · rw [if_neg hna] at ha
          exact hna ha
      · have hc : c = ' ' := by simpa using h2
        subst hc
        decide

theorem defUpdate_eq (c : Node) (d : Str) : defUpdate c d = d ++ definitionPiece c := by
  cases hfc : c.firstChild with
  | none => simp [defUpdate, definitionPiece, hfc]
  | some fc =>
    cases fc with
    | element te ae ce => simp [defUpdate, definitionPiece, hfc, Node.asText]
    | text t => simp [defUpdate, definitionPiece, hfc, Node.asText, List.append_assoc]

theorem childLoop_snd (wordEl : Node) : ∀ (cs : NodeList) (w d : Str),
    (childLoop wordEl cs w d).2 = d ++ (cs.toList.map definitionPiece).flatten
  | .nil, w, d => by simp [childLoop, NodeList.toList]
  | .cons c cs, w, d => by
    rw [childLoop, childLoop_snd wordEl cs, defUpdate_eq]
    simp [NodeList.toList, List.append_assoc]

theorem childLoop_fst_id (wordEl : Node) (hid : ∀ w, wordUpdate wordEl w = w) :
    ∀ (cs : NodeList) (w d : Str), (childLoop wordEl cs w d).1 = w
  | .nil, _, _ => rfl
  | .cons c cs, w, d => by
    rw [childLoop]
    by_cases hc : hasIdAttr c = true
    · rw [if_pos hc, hid, childLoop_fst_id wordEl hid cs]
    · rw [if_neg hc, childLoop_fst_id wordEl hid cs]

theorem childLoop_fst_const (wordEl : Node) (k : Str) (hk : ∀ w, wordUpdate wordEl w = k) :
    ∀ (cs : NodeList) (w d : Str),
      (childLoop wordEl cs w d).1 = if cs.toList.any hasIdAttr then k else w
  | .nil, w, d => by simp [childLoop, NodeList.toList]
  | .cons c cs, w, d => by
    rw [childLoop]
    by_cases hc : hasIdAttr c = true
    · rw [if_pos hc, hk, childLoop_fst_const wordEl k hk cs]
      simp [NodeList.toList, hc]
    · rw [if_neg hc, childLoop_fst_const wordEl k hk cs]
      simp [NodeList.toList, Bool.eq_false_iff.mpr hc]

theorem qualifies_shape (p : Node) (hq : qualifies p = true) :
    ∃ t a c cs, p = Node.element t a (NodeList.cons c cs) ∧ hasIdAttr c = true := by
  cases p with
  | text s => simp [qualifies, Node.hasChildren, Node.childList] at hq
  | element t a cs =>
    cases cs with
    | nil => simp [qualifies, Node.hasChildren, Node.childList] at hq
    | cons c cs' =>
      refine ⟨t, a, c, cs', rfl, ?_⟩
      cases c with
      | text s =>
        simp [qualifies, Node.hasChildren, Node.firstChild, Node.childList] at hq
      | element tc ac cc =>
        cases hA : (Node.element tc ac cc).attrOf "id".data with
        | none =>
          simp [qualifies, Node.hasChildren, Node.firstChild, Node.childList, hA] at hq
        | some v => simp [hasIdAttr, hA]

theorem wordAmended_eq (p wordEl : Node) (hb : firstBold p = some wordEl) :
    wordAmended p
      = (match wordEl.firstChild with
         | some fc =>
           match fc.asText with
           | some t => trim t
           | none => []
         | none => []) := by
  rw [wordAmended, hb]

theorem tryFrom_eq (p : Node) (wordEl : Node) (hq : qualifies p = true)
    (hb : firstBold p = some wordEl) :
    tryFromEntry p
      = some (Except.ok { word := wordAmended p, definition := definitionSpec p }) := by
  obtain ⟨t, a, c, cs, hp, hid⟩ := qualifies_shape p hq
  subst hp
  have hTF : tryFromEntry (Node.element t a (NodeList.cons c cs))
      = some (Except.ok
          { word := (childLoop wordEl (NodeList.cons c cs) [] []).1,
            definition := trim (childLoop wordEl (NodeList.cons c cs) [] []).2 }) := by
    rw [tryFromEntry, hb]
    exact rfl
  have hW := wordAmended_eq (Node.element t a (NodeList.cons c cs)) wordEl hb
  have hdef : (childLoop wordEl (NodeList.cons c cs) [] []).2
      = ((NodeList.cons c cs).toList.map definitionPiece).flatten := by
    rw [childLoop_snd]
    simp
  have hany : (NodeList.cons c cs).toList.any hasIdAttr = true := by
    simp [NodeList.toList, hid]
  cases hwc : wordEl.firstChild with
  | none =>
    have hword : (childLoop wordEl (NodeList.cons c cs) [] []).1 = [] :=
      childLoop_fst_id wordEl (fun w => by rw [wordUpdate, hwc]) (NodeList.cons c cs) [] []
    rw [hTF, hW, hwc, hword, hdef]
    exact rfl
  | some fc =>
    cases fc with
    | element te ae ce =>
      have hword : (childLoop wordEl (NodeList.cons c cs) [] []).1 = [] :=
        childLoop_fst_id wordEl (fun w => by rw [wordUpdate, hwc]; exact rfl)
          (NodeList.cons c cs) [] []
      rw [hTF, hW, hwc, hword, hdef]
      exact rfl
    | text s =>
      have hword : (childLoop wordEl (NodeList.cons c cs) [] []).1 = trim s := by
        rw [childLoop_fst_const wordEl (trim s) (fun w => by rw [wordUpdate, hwc]; exact rfl)
            (NodeList.cons c cs) [] []]
        simp [hany]
      rw [hTF, hW, hwc, hword, hdef]
      exact rfl

theorem mapOpt_none {α β : Type} {f : α → Option β} :
    ∀ {l : List α} {x : α}, x ∈ l → f x = none → mapOpt f l = none := by
  intro l
  induction l with
  | nil => intro x hx; cases hx
  | cons a as ih =>
    intro x hx hfx
    rcases List.mem_cons.mp hx with h | h
    · subst h
      simp [mapOpt, hfx]
    · rw [mapOpt]
      cases hfa : f a with
      | none => rfl
      | some y => rw [ih h hfx]


theorem mapOpt_map {α β : Type} {f : α → Option β} {g : α → β} :
    ∀ {l : List α}, (∀ x ∈ l, f x = some (g x)) → mapOpt f l = some (l.map g) := by
  intro l
  induction l with
  | nil => intro _; rfl
  | cons a as ih =>
    intro h
    have ha := h a (List.mem_cons_self a as)
    have hrest := ih (fun x hx => h x (List.mem_cons_of_mem a hx))
    rw [mapOpt, ha, hrest]
    rfl

theorem mem_insertDesc {key : Entry → ℕ} {e x : Entry} :
    ∀ {l : List Entry}, x ∈ insertDesc key e l → x = e ∨ x ∈ l := by
  intro l
  induction l with
  | nil =>
    intro h
    rw [insertDesc] at h
    exact Or.inl (by simpa using h)
  | cons y ys ih =>
    intro h
    rw [insertDesc] at h
    by_cases hc : key y ≤ key e
    · rw [if_pos hc] at h
      rcases List.mem_cons.mp h with h | h
      · exact Or.inl h
      · exact Or.inr h
    · rw [if_neg hc] at h
      rcases List.mem_cons.mp h with h | h
      · exact Or.inr (by simp [h])
      · rcases ih h with h | h
        · exact Or.inl h
        · exact Or.inr (List.mem_cons_of_mem _ h)

theorem mem_sortDesc {key : Entry → ℕ} :
    ∀ {l : List Entry} {x : Entry}, x ∈ sortDesc key l → x ∈ l := by
  intro l
  induction l with
  | nil => intro x h; rw [sortDesc] at h; cases h
  | cons e es ih =>
    intro x h
    rw [sortDesc] at h
    rcases mem_insertDesc h with h | h
    · simp [h]
    · exact List.mem_cons_of_mem _ (ih h)

theorem topDocs_length (fs : List IdxField) (terms : List Str) (es : List Entry) (k : ℕ) :
    (topDocs fs terms es k).length ≤ k := by
  rw [topDocs, List.length_take]
  exact min_le_left _ _

theorem topDocs_score_pos (fs : List IdxField) (terms : List Str) (es : List Entry) (k : ℕ)
    {e : Entry} (he : e ∈ topDocs fs terms es k) : 0 < score fs terms e := by
  rw [topDocs] at he
  have h1 := List.take_subset _ _ he
  have h2 := mem_sortDesc h1
  have h3 := List.mem_filter.mp h2
  exact of_decide_eq_true h3.2

theorem qualifies_eq_spec (n : Node) : qualifies n = qualifiesSpec n := by
  cases n with
  | text s => rfl
  | element t a cs =>
    cases cs with
    | nil => rfl
    | cons c cs' => cases c <;> rfl

/-- Claim C1, corrected.  If any qualifying paragraph has no bold
element, the extraction pass aborts by a panic (modelled `none`) — the
process crashes rather than surfacing a `MalformedDocument` error
value to the caller; and when only the text-node lookup inside an
existing bold element fails, extraction does not abort at all: it
returns `Ok`, producing an entry (whose word may be empty). -/
theorem claim_C1 (roots : NodeList) (p : Node)
    (hmem : p ∈ qualifyingParagraphs roots) (hb : firstBold p = none) :
    parseDoc roots = none ∧
    ∀ q b, qualifies q = true → firstBold q = some b →
      ∃ e, tryFromEntry q = some (Except.ok e) := by
  constructor
  · have hnone : expectOk (tryFromEntry p) = none := by
      rw [tryFromEntry, hb]
      exact rfl
    rw [parseDoc, extractEntries, mapOpt_none hmem hnone]
  · intro q b hq hbq
    exact ⟨_, tryFrom_eq q b hq hbq⟩

/-- Claim C1, counterexample to the original claim: the qualifying
paragraph `pNoBold` has no bold element and the whole pass panics
(`none`), surfacing no error value; the qualifying paragraph `pNoText`
fails the text-node lookup inside its bold element yet the pass
succeeds with an empty-word entry. -/
theorem claim_C1_counterexample :
    qualifies pNoBold = true ∧ firstBold pNoBold = none ∧
    parseDoc docNoBold = none ∧
    parseDoc docNoText = some (Except.ok (Dictionary.new [entryNoText])) := by decide

/-- Claim C1, witness: the amended theorem applied to the concrete
document `docNoBold`. -/
theorem claim_C1_witness :
    parseDoc docNoBold = none ∧
    ∀ q b, qualifies q = true → firstBold q = some b →
      ∃ e, tryFromEntry q = some (Except.ok e) :=
  claim_C1 docNoBold pNoBold (by decide) (by decide)

/-- Claim C2, corrected.  An entry extracted from a qualifying
paragraph has a non-empty word whenever the first bold element's first
child is a text node whose trimmed content is non-empty; but (see the
counterexample) a qualifying paragraph whose bold element's first
child is not a text node is stored as an entry with an empty word
rather than dropped, and search can return that entry. -/
theorem claim_C2 (p : Node) (wordEl : Node) (s : Str)
    (hq : qualifies p = true) (hb : firstBold p = some wordEl)
    (hfc : wordEl.firstChild = some (Node.text s)) (hs : trim s ≠ []) :
    ∃ e, tryFromEntry p = some (Except.ok e) ∧ e.word ≠ [] := by
  refine ⟨_, tryFrom_eq p wordEl hq hb, ?_⟩
  show wordAmended p ≠ []
  rw [wordAmended_eq p wordEl hb, hfc]
  exact hs

/-- Claim C2, counterexample to the original claim: the pipeline on
`docNoText` stores an entry whose word is empty, and `search` returns
that empty-word entry. -/
theorem claim_C2_counterexample :
    parseDoc docNoText = some (Except.ok { entries := [entryNoText] }) ∧
    Dictionary.search { entries := [entryNoText] } "hello".data none
      = Except.ok [entryNoText] ∧
    entryNoText.word = [] := by decide

/-- Claim C2, witness: the amended theorem applied to the concrete
paragraph `pGood`. -/
theorem claim_C2_witness :
    ∃ e, tryFromEntry pGood = some (Except.ok e) ∧ e.word ≠ [] :=
  claim_C2 pGood bEl " Leoht ".data (by decide) (by decide) (by decide) (by decide)

/-- Claim C3, confirmed.  `define` evaluates the query against the
`word` field only with a fixed limit of 10 (its signature offers no
limit parameter): it returns at most 10 entries and every returned
entry scores positively on the `word` field alone. -/
theorem claim_C3 (d : Dictionary) (q : Str) (res : List Entry)
    (h : d.define q = Except.ok res) :
    res.length ≤ 10 ∧
      ∃ terms, parseQuery q = Except.ok terms ∧
        ∀ e ∈ res, 0 < score [IdxField.word] terms e := by
  rw [Dictionary.define] at h
  cases hpq : parseQuery q with
  | error err => rw [hpq] at h; cases h
  | ok terms =>
    rw [hpq] at h
    injection h with h1
    refine ⟨?_, terms, rfl, ?_⟩
    · rw [← h1]
      exact topDocs_length _ _ _ _
    · intro e he
      rw [← h1] at he
      exact topDocs_score_pos _ _ _ _ he

/-- Claim C3, witness: `define` on the two-entry dictionary of the
spec's round-trip example. -/
theorem claim_C3_witness :
    ([⟨"b".data, "second letter".data⟩] : List Entry).length ≤ 10 ∧
      ∃ terms, parseQuery "b".data = Except.ok terms ∧
        ∀ e ∈ ([⟨"b".data, "second letter".data⟩] : List Entry),
          0 < score [IdxField.word] terms e :=
  claim_C3 dictAB "b".data [⟨"b".data, "second letter".data⟩] (by decide)

/-- Claim C4, confirmed.  A paragraph of the document is kept as an
entry exactly when its first child node is an element whose `id`
attribute value begins with `"word_"` (the spec's selection rule);
all other paragraphs are filtered out, contributing nothing. -/
theorem claim_C4 (roots : NodeList) :
    qualifyingParagraphs roots = (selectTag "p".data roots).filter qualifiesSpec ∧
    ∀ p, p ∈ qualifyingParagraphs roots ↔
      (p ∈ selectTag "p".data roots ∧ qualifiesSpec p = true) := by
  have h1 : qualifyingParagraphs roots = (selectTag "p".data roots).filter qualifiesSpec := by
    rw [qualifyingParagraphs]
    exact List.filter_congr (fun x _ => qualifies_eq_spec x)
  refine ⟨h1, fun p => ?_⟩
  rw [h1]
  exact List.mem_filter

/-- Claim C5, corrected.  For a qualifying paragraph the extracted
definition is exactly the spec's computation (`definitionSpec`), and
the extracted word is the trimmed text of the bold element's FIRST
child when that child is a text node — not the first text-node child
among all children (`wordSpec`), which the counterexample separates. -/
theorem claim_C5 (p : Node) (e : Entry) (hq : qualifies p = true)
    (he : tryFromEntry p = some (Except.ok e)) :
    e.word = wordAmended p ∧ e.definition = definitionSpec p := by
  cases hb : firstBold p with
  | none => rw [tryFromEntry, hb] at he; cases he
  | some wordEl =>
    rw [tryFrom_eq p wordEl hq hb] at he
    injection he with h1
    injection h1 with h2
    subst h2
    exact ⟨rfl, rfl⟩

/-- Claim C5, counterexample to the original claim: in `pLateText` the
bold element's children are an italic element followed by a text node;
the code extracts an empty word while the first text-node child of the
bold element, trimmed, is `"real"`. -/
theorem claim_C5_counterexample :
    qualifies pLateText = true ∧
    extractedWord pLateText = some [] ∧
    wordSpec pLateText = some "real".data ∧
    extractedWord pLateText ≠ wordSpec pLateText := by decide

/-- Claim C5, witness: the amended theorem applied to the concrete
paragraph `pGood` and its extracted entry. -/
theorem claim_C5_witness :
    entryGood.word = wordAmended pGood ∧ entryGood.definition = definitionSpec pGood :=
  claim_C5 pGood entryGood (by decide) (by decide)

/-- Claim C6, confirmed.  `search` returns at most `limit` entries
when a limit is supplied and at most 10 when it is omitted
(`limit.unwrap_or(10)`). -/
theorem claim_C6 (d : Dictionary) (q : Str) (lim : Option ℕ) (res : List Entry)
    (h : d.search q lim = Except.ok res) : res.length ≤ lim.getD 10 := by
  rw [Dictionary.search] at h
  cases hpq : parseQuery q with
  | error err => rw [hpq] at h; cases h
  | ok terms =>
    rw [hpq] at h
    injection h with h1
    rw [← h1]
    exact topDocs_length _ _ _ _

/-- Claim C6, witness: `search` with limit 1 on the two-entry
dictionary returns one entry. -/
theorem claim_C6_witness :
    ([⟨"a".data, "first letter".data⟩] : List Entry).length ≤ (some 1 : Option ℕ).getD 10 :=
  claim_C6 dictAB "letter".data (some 1) [⟨"a".data, "first letter".data⟩] (by decide)

/-- Claim C7, confirmed.  A query that is malformed under the
backend's grammar (unbalanced quotation mark) makes both `search` and
`define` return the `InvalidQuery` error value; the dictionary value
is untouched (the embedded operations are pure), and any well-formed
query still succeeds on the same dictionary afterwards. -/
theorem claim_C7 (d : Dictionary) (q : Str) (lim : Option ℕ)
    (hq : unbalancedQuote q = true) :
    d.search q lim = Except.error DictErr.invalidQuery ∧
    d.define q = Except.error DictErr.invalidQuery ∧
    ∀ q2 lim2, unbalancedQuote q2 = false →
      ∃ res, d.search q2 lim2 = Except.ok res := by
  have hpq : parseQuery q = Except.error DictErr.invalidQuery := by
    rw [parseQuery, if_pos hq]
  refine ⟨?_, ?_, ?_⟩
  · rw [Dictionary.search, hpq]
  · rw [Dictionary.define, hpq]
  · intro q2 lim2 h2
    have hpq2 : parseQuery q2
        = Except.ok (tokenize (q2.filter (fun c => !(c == '"')))) := by
      rw [parseQuery, if_neg (by simp [h2])]
    exact ⟨_, by rw [Dictionary.search, hpq2]⟩

/-- Claim C7, witness: the theorem applied to a lone double-quote
query against the two-entry dictionary. -/
theorem claim_C7_witness :
    Dictionary.search dictAB ['"'] none = Except.error DictErr.invalidQuery ∧
    Dictionary.define dictAB ['"'] = Except.error DictErr.invalidQuery ∧
    ∀ q2 lim2, unbalancedQuote q2 = false →
      ∃ res, Dictionary.search dictAB q2 lim2 = Except.ok res :=
  claim_C7 dictAB ['"'] none (by decide)

/-- Claim C8, confirmed.  Every extracted entry's definition contains
no raw newline character and has no leading or trailing whitespace. -/
theorem claim_C8 (p : Node) (e : Entry) (he : tryFromEntry p = some (Except.ok e)) :
    (∀ c ∈ e.definition, c ≠ '\n') ∧
    (∀ c, e.definition.head? = some c → isWs c = false) ∧
    (∀ c, e.definition.getLast? = some c → isWs c = false) := by
  cases hb : firstBold p with
  | none => rw [tryFromEntry, hb] at he; cases he
  | some wordEl =>
    cases hfc : p.firstChild with
    | none => rw [tryFromEntry, hb, hfc] at he; cases he
    | some anchor =>
      rw [tryFromEntry, hb, hfc] at he
      injection he with h1
      injection h1 with h2
      subst h2
      refine ⟨?_, fun c hcc => trim_head_not_ws hcc, fun c hcc => trim_getLast_not_ws hcc⟩
      intro c hc
      have hc2 := mem_of_mem_trim hc
      rw [childLoop_snd wordEl] at hc2
      simp only [List.nil_append, List.mem_flatten, List.mem_map] at hc2
      obtain ⟨piece, ⟨n, _, hn⟩, hcp⟩ := hc2
      rw [← hn] at hcp
      exact definitionPiece_no_nl n hcp

/-- Claim C8, witness: the theorem applied to the concrete paragraph
`pGood` and its extracted entry. -/
theorem claim_C8_witness :
    (∀ c ∈ entryGood.definition, c ≠ '\n') ∧
    (∀ c, entryGood.definition.head? = some c → isWs c = false) ∧
    (∀ c, entryGood.definition.getLast? = some c → isWs c = false) :=
  claim_C8 pGood entryGood (by decide)

/-- Claim C9, confirmed.  Extraction is a pure function (running it
twice on the same tree gives the same value), and when every
qualifying paragraph converts, the result is the in-order map of the
conversion over the qualifying paragraphs: document order is kept, no
sorting or deduplication happens, and duplicates survive (see the
witness on a document with two identical paragraphs). -/
theorem claim_C9 (roots : NodeList)
    (h : ∀ p ∈ qualifyingParagraphs roots, ∃ b, firstBold p = some b) :
    extractEntries roots = some ((qualifyingParagraphs roots).map extractedOr) := by
  rw [extractEntries]
  apply mapOpt_map
  intro p hp
  obtain ⟨b, hb⟩ := h p hp
  rw [qualifyingParagraphs] at hp
  have hq : qualifies p = true := (List.mem_filter.mp hp).2
  have hx := tryFrom_eq p b hq hb
  rw [hx, extractedOr, hx]
  exact rfl

/-- Claim C9, witness: on the document with two identical qualifying
paragraphs the extracted sequence keeps both copies in order. -/
theorem claim_C9_witness :
    extractEntries docDup = some ((qualifyingParagraphs docDup).map extractedOr) := by
  apply claim_C9
  intro p hp
  have hl : qualifyingParagraphs docDup = [pGood, pGood] := by decide
  rw [hl] at hp
  rcases List.mem_cons.mp hp with h | h
  · subst h
    exact ⟨bEl, by decide⟩
  · have h2 : p = pGood := by simpa using h
    subst h2
    exact ⟨bEl, by decide⟩

/-- Claim C10, confirmed.  The `TryFrom` conversion never returns an
`Err`: whenever it finishes without panicking it yields `Ok`, so its
declared error branch is unreachable. -/
theorem claim_C10 (p : Node) (r : Except DictErr Entry)
    (h : tryFromEntry p = some r) : ∃ e, r = Except.ok e := by
  cases hb : firstBold p with
  | none => rw [tryFromEntry, hb] at h; cases h
  | some wordEl =>
    cases hfc : p.firstChild with
    | none => rw [tryFromEntry, hb, hfc] at h; cases h
    | some anchor =>
      rw [tryFromEntry, hb, hfc] at h
      injection h with h1
      exact ⟨_, h1.symm⟩

/-- Claim C10, witness: the theorem applied to the concrete paragraph
`pGood`, whose conversion result is `Ok entryGood`. -/
theorem claim_C10_witness :
    ∃ e, (Except.ok entryGood : Except DictErr Entry) = Except.ok e :=
  claim_C10 pGood (Except.ok entryGood) (by decide)
